import Mathlib

/-!
Verification of the document-conversion core and the topic-view components
of the web-app repository.

The migration script itself (`migration.py`) is not part of the source
tree; its behaviour is documented in `Tools/Migration/QA_EXTRACTION_README.md`
and in the specification.  The definitions in the first half of this file
are therefore modelled from the spec, faithful to its words; the second
half embeds the JavaScript components (`Topics.jsx` / `TopicView.jsx` /
`TreeNode.jsx`) that are present in the repository.
-/

/-! ## Q&A Tag State Machine (spec §4.6, QA_EXTRACTION_README.md) -/

/-- Modelled from the spec: the metadata tags recognised by the Q&A
extraction (`migration.py`, absent from the tree; README lines 15-23). -/
inductive QTag where
  | question
  | answer
  | bookExercise
  | additionalExercise
  | faq
  | type1
  | type2
  | type3
  | type4
  | exerciseRef (s : String)
  | activityQuiz (s : String) (ans : Int)
deriving DecidableEq, Repr

/-- Modelled from the spec: one classified paragraph reaching the Q&A
machine is either a metadata tag or a content paragraph (content items
are opaque to the machine). -/
inductive QEvent (α : Type) where
  | tag (t : QTag)
  | content (c : α)
deriving DecidableEq, Repr

/-- Modelled from the spec: the explicit state enum of the Q&A machine. -/
inductive QaState where
  | idle
  | inQuestion
  | inAnswer
deriving DecidableEq, Repr

inductive ExerciseType where
  | book
  | board
  | extra
deriving DecidableEq, Repr

inductive QuestionType where
  | veryShort
  | short
  | long
  | veryLong
deriving DecidableEq, Repr

inductive Difficulty where
  | easy
  | medium
  | hard
deriving DecidableEq, Repr

/-- Modelled from the spec: the mutable pending Qa record, with one flag
per presence-checked tag (README "Tag Processing Logic" checks tag
presence with a fixed if/else-if chain). -/
structure Pending (α : Type) where
  bookEx : Bool := false
  addEx : Bool := false
  faqTag : Bool := false
  t1 : Bool := false
  t2 : Bool := false
  t3 : Bool := false
  t4 : Bool := false
  reference : Option String := none
  mcqAnswer : Option Int := none
  question : List α := []
  answer : List α := []
deriving DecidableEq, Repr

/-- A finalized Qa record (README database schema). -/
structure Qa (α : Type) where
  exerciseType : ExerciseType
  questionType : QuestionType
  reference : String
  difficulty : Difficulty
  mcqAnswer : Option Int
  question : List α
  answer : List α
deriving DecidableEq, Repr

/-- Modelled from the spec: the fixed exercise-type precedence
(`book_exercise` forces book; `additional_exercise` together with `faq`
forces board; otherwise extra). -/
def deriveExerciseType (p : Pending α) : ExerciseType :=
  if p.bookEx then ExerciseType.book
  else if p.addEx && p.faqTag then ExerciseType.board
  else ExerciseType.extra

/-- Modelled from the spec: question-type derivation with the README's
if/else-if chain over the four type tags, defaulting to short. -/
def deriveQuestionType (p : Pending α) : QuestionType :=
  if p.t1 then QuestionType.veryShort
  else if p.t2 then QuestionType.short
  else if p.t3 then QuestionType.long
  else if p.t4 then QuestionType.veryLong
  else QuestionType.short

/-- Modelled from the spec: `finalize_qa` applies the documented defaults
(exerciseType extra, questionType short, difficulty medium, reference ""). -/
def finalizeQa (p : Pending α) : Qa α :=
  { exerciseType := deriveExerciseType p
    questionType := deriveQuestionType p
    reference := p.reference.getD ""
    difficulty := Difficulty.medium
    mcqAnswer := p.mcqAnswer
    question := p.question
    answer := p.answer }

/-- Machine state: the enum state, the pending record, and the output
list.  Each output entry keeps the pending record it was finalized from
next to the emitted Qa, so theorems can speak about the tags seen for a
given record. -/
structure QaM (α : Type) where
  state : QaState := QaState.idle
  pending : Pending α := {}
  outPairs : List (Pending α × Qa α) := []
deriving DecidableEq, Repr

/-- Finalize the pending Qa, append it, and reset the pending record. -/
def emitQa (m : QaM α) : QaM α :=
  { state := m.state
    pending := {}
    outPairs := m.outPairs ++ [(m.pending, finalizeQa m.pending)] }

/-- Modelled from the spec: metadata tags update the pending record (the
`question` / `answer` boundary tags are handled by `qstep`, not here). -/
def applyTag (t : QTag) (p : Pending α) : Pending α :=
  match t with
  | QTag.bookExercise => { p with bookEx := true }
  | QTag.additionalExercise => { p with addEx := true }
  | QTag.faq => { p with faqTag := true }
  | QTag.type1 => { p with t1 := true }
  | QTag.type2 => { p with t2 := true }
  | QTag.type3 => { p with t3 := true }
  | QTag.type4 => { p with t4 := true }
  | QTag.exerciseRef s => { p with reference := some s }
  | QTag.activityQuiz _ ans => { p with mcqAnswer := some ans }
  | QTag.question => p
  | QTag.answer => p

/-- Modelled from the spec: one transition of the Q&A tag state machine. -/
def qstep (m : QaM α) (e : QEvent α) : QaM α :=
  match e with
  | QEvent.tag QTag.question =>
    if m.state = QaState.inQuestion ∨ m.state = QaState.inAnswer then
      { emitQa m with state := QaState.inQuestion }
    else
      { m with state := QaState.inQuestion }
  | QEvent.tag QTag.answer => { m with state := QaState.inAnswer }
  | QEvent.tag t =>
    if m.state = QaState.idle ∨ m.state = QaState.inQuestion then
      { m with pending := applyTag t m.pending }
    else m
  | QEvent.content c =>
    match m.state with
    | QaState.idle => m
    | QaState.inQuestion =>
      { m with pending := { m.pending with question := m.pending.question ++ [c] } }
    | QaState.inAnswer =>
      { m with pending := { m.pending with answer := m.pending.answer ++ [c] } }

/-- Modelled from the spec: run the machine over a document's classified
paragraph stream; at end of document the last pending Qa (if one is in
progress) is finalized exactly as on a new question tag. -/
def qaRun (events : List (QEvent α)) : List (Pending α × Qa α) :=
  let m := events.foldl qstep {}
  if m.state = QaState.inQuestion ∨ m.state = QaState.inAnswer then
    (emitQa m).outPairs
  else
    m.outPairs

/-- The plain list of Qa records produced for a document. -/
def qaOutput (events : List (QEvent α)) : List (Qa α) :=
  (qaRun events).map Prod.snd

/-! ### Machine lemmas -/

theorem qstep_outPairs (m : QaM α) (e : QEvent α) :
    (qstep m e).outPairs = m.outPairs ∨
      (qstep m e).outPairs = m.outPairs ++ [(m.pending, finalizeQa m.pending)] := by
  cases e with
  | tag t =>
    cases t <;> simp only [qstep, emitQa] <;>
      first
        | (split <;> simp)
        | simp
  | content c =>
    cases h : m.state <;> simp [qstep, h]

theorem foldl_qstep_outPairs_finalized (events : List (QEvent α)) :
    ∀ m : QaM α, (∀ pq ∈ m.outPairs, pq.2 = finalizeQa pq.1) →
      ∀ pq ∈ (events.foldl qstep m).outPairs, pq.2 = finalizeQa pq.1 := by
  induction events with
  | nil => intro m hm; simpa using hm
  | cons e rest ih =>
    intro m hm
    refine ih (qstep m e) ?_
    intro pq hpq
    rcases qstep_outPairs m e with h | h
    · exact hm pq (h ▸ hpq)
    · rw [h] at hpq
      rcases List.mem_append.mp hpq with h1 | h1
      · exact hm pq h1
      · simp only [List.mem_singleton] at h1
        subst h1; rfl

theorem qaRun_finalized (events : List (QEvent α)) :
    ∀ pq ∈ qaRun events, pq.2 = finalizeQa pq.1 := by
  intro pq hpq
  have base := foldl_qstep_outPairs_finalized events ({} : QaM α) (by simp)
  simp only [qaRun] at hpq
  split at hpq
  · simp only [emitQa, List.mem_append, List.mem_singleton] at hpq
    rcases hpq with h | h
    · exact base pq h
    · subst h; rfl
  · exact base pq hpq

/-- C1: for every Qa record produced by the Q&A tag state machine,
`exerciseType` is book exactly when a book_exercise tag was seen for that
record; it is board exactly when no book_exercise tag was seen but both an
additional_exercise tag and a faq tag were; and it is extra otherwise —
a single additional_exercise or a single faq alone never yields board. -/
theorem qa_exerciseType_precedence (events : List (QEvent α))
    (pq : Pending α × Qa α) (hmem : pq ∈ qaRun events) :
    (pq.2.exerciseType = ExerciseType.book ↔ pq.1.bookEx = true) ∧
    (pq.2.exerciseType = ExerciseType.board ↔
      (pq.1.bookEx = false ∧ pq.1.addEx = true ∧ pq.1.faqTag = true)) ∧
    (pq.2.exerciseType = ExerciseType.extra ↔
      (pq.1.bookEx = false ∧ (pq.1.addEx = false ∨ pq.1.faqTag = false))) := by
  have h := qaRun_finalized events pq hmem
  rw [h]
  cases hb : pq.1.bookEx <;> cases ha : pq.1.addEx <;> cases hf : pq.1.faqTag <;>
    simp [finalizeQa, deriveExerciseType, hb, ha, hf]

/-- Witness for C1 at a one-event document. -/
theorem qa_exerciseType_precedence_witness :
    ((({} : Pending String), finalizeQa ({} : Pending String)) ∈
      qaRun [QEvent.tag QTag.question]) ∧
    ((finalizeQa ({} : Pending String)).exerciseType = ExerciseType.book ↔
      ({} : Pending String).bookEx = true) :=
  ⟨by decide,
   (qa_exerciseType_precedence [QEvent.tag QTag.question]
      (({} : Pending String), finalizeQa ({} : Pending String)) (by decide)).1⟩

/-- C2: the tag sequence book_exercise, type=1, question, Q1, answer, A1,
question, Q2, answer, A2 yields exactly two Qa records, the first with
exerciseType book and questionType very-short, the second with the
defaults extra and short — metadata set before one question boundary does
not leak into the next record. -/
theorem qa_two_records_no_metadata_leak :
    qaOutput [QEvent.tag QTag.bookExercise, QEvent.tag QTag.type1,
              QEvent.tag QTag.question, QEvent.content "Q1",
              QEvent.tag QTag.answer, QEvent.content "A1",
              QEvent.tag QTag.question, QEvent.content "Q2",
              QEvent.tag QTag.answer, QEvent.content "A2"] =
    [{ exerciseType := ExerciseType.book, questionType := QuestionType.veryShort,
       reference := "", difficulty := Difficulty.medium, mcqAnswer := none,
       question := ["Q1"], answer := ["A1"] },
     { exerciseType := ExerciseType.extra, questionType := QuestionType.short,
       reference := "", difficulty := Difficulty.medium, mcqAnswer := none,
       question := ["Q2"], answer := ["A2"] }] := by
  decide

/-- C6: when the document ends while the machine is in state in_question
or in_answer, the pending Qa is finalized with the same `finalizeQa` used
at a question boundary and appended to the output (not dropped), with
whatever answer content was accumulated. -/
theorem qa_end_of_document_finalizes (events : List (QEvent α))
    (h : (events.foldl qstep ({} : QaM α)).state = QaState.inQuestion ∨
         (events.foldl qstep ({} : QaM α)).state = QaState.inAnswer) :
    qaOutput events =
      ((events.foldl qstep ({} : QaM α)).outPairs).map Prod.snd ++
        [finalizeQa (events.foldl qstep ({} : QaM α)).pending] ∧
    (finalizeQa (events.foldl qstep ({} : QaM α)).pending).answer =
      (events.foldl qstep ({} : QaM α)).pending.answer := by
  constructor
  · unfold qaOutput qaRun
    rw [if_pos h]
    simp [emitQa]
  · rfl

/-- Witness for C6: a document ending mid-answer still yields its record. -/
theorem qa_end_of_document_finalizes_witness :
    qaOutput [QEvent.tag QTag.question, QEvent.content "q", QEvent.tag QTag.answer] =
      [finalizeQa ({ question := ["q"] } : Pending String)] := by
  have h := (qa_end_of_document_finalizes
    [QEvent.tag QTag.question, QEvent.content "q", QEvent.tag QTag.answer]
    (by decide)).1
  exact h.trans (by decide)

/-! ## Chapter Upsert Merger (spec §4.7, README `process_single_file_qa`) -/

/-- Modelled from the spec: one chapter entry of the qa store, with the
chapter number stored as a string and an opaque payload sequence. -/
structure QaChapterS (α : Type) where
  chapterNo : String
  qa : List α
deriving DecidableEq, Repr

/-- Numeric value of a chapter-number string (digit fold). -/
def digitsVal : List Char → Nat → Nat
  | [], acc => acc
  | c :: rest, acc => digitsVal rest (acc * 10 + (c.toNat - '0'.toNat))

/-- Modelled from the spec: the numeric chapter order used to sort the
store's chapter collection. -/
def chNum (s : String) : Nat := digitsVal s.toList 0

/-- Order on chapter entries by numeric chapter number. -/
def chLE (a b : QaChapterS α) : Prop := chNum a.chapterNo ≤ chNum b.chapterNo

instance : DecidableRel (@chLE α) := fun a b => Nat.decLe _ _

instance : IsTotal (QaChapterS α) chLE := ⟨fun _ _ => Nat.le_total _ _⟩

instance : IsTrans (QaChapterS α) chLE := ⟨fun _ _ _ => Nat.le_trans⟩

/-- Modelled from the spec: replace, in place, the payload of the first
entry whose chapter number matches. -/
def replaceQa : List (QaChapterS α) → String → List α → List (QaChapterS α)
  | [], _, _ => []
  | c :: rest, ch, qa =>
    if c.chapterNo = ch then { c with qa := qa } :: rest
    else c :: replaceQa rest ch qa

/-- Modelled from the spec: locate an existing entry by chapter identity;
if found, replace its payload in place (keeping its position); if not
found, insert a new entry and re-sort by numeric chapter order. -/
def upsertQa (store : List (QaChapterS α)) (ch : String) (qa : List α) :
    List (QaChapterS α) :=
  if store.any (fun c => c.chapterNo = ch) then replaceQa store ch qa
  else List.insertionSort chLE (store ++ [{ chapterNo := ch, qa := qa }])


theorem replaceQa_any (store : List (QaChapterS α)) (ch : String) (qa : List α)
    (h : store.any (fun c => c.chapterNo = ch) = true) :
    (replaceQa store ch qa).any (fun c => c.chapterNo = ch) = true := by
  induction store with
  | nil => simpa using h
  | cons c rest ih =>
    by_cases hc : c.chapterNo = ch
    · simp [replaceQa, hc]
    · have h' : rest.any (fun x => x.chapterNo = ch) = true := by
        simpa [List.any_cons, hc] using h
      simp [replaceQa, hc, ih h']

theorem replaceQa_idem (store : List (QaChapterS α)) (ch : String) (qa : List α) :
    replaceQa (replaceQa store ch qa) ch qa = replaceQa store ch qa := by
  induction store with
  | nil => rfl
  | cons c rest ih =>
    by_cases hc : c.chapterNo = ch
    · simp [replaceQa, hc]
    · simp [replaceQa, hc, ih]

theorem replaceQa_of_all_eq (store : List (QaChapterS α)) (ch : String) (qa : List α)
    (h : ∀ c ∈ store, c.chapterNo = ch → c.qa = qa) :
    replaceQa store ch qa = store := by
  induction store with
  | nil => rfl
  | cons c rest ih =>
    by_cases hc : c.chapterNo = ch
    · have hq := h c (List.mem_cons_self c rest) hc
      obtain ⟨no, qal⟩ := c
      simp only at hq hc
      simp [replaceQa, hc, hq]
    · simp only [replaceQa, if_neg hc]
      exact congrArg (c :: ·) (ih fun c' hc' => h c' (List.mem_cons_of_mem _ hc'))

/-- C4: the upsert-merge is idempotent — merging the same freshly built
payload for the same chapter twice leaves the store exactly as after the
first merge (the model's identifiers are deterministic, so no exclusion
for random ids is needed). -/
theorem upsertQa_idempotent (store : List (QaChapterS α)) (ch : String)
    (qa : List α) :
    upsertQa (upsertQa store ch qa) ch qa = upsertQa store ch qa := by
  by_cases h : store.any (fun c => c.chapterNo = ch) = true
  · have e1 : upsertQa store ch qa = replaceQa store ch qa := by
      unfold upsertQa; rw [if_pos h]
    have h2 := replaceQa_any store ch qa h
    have e2 : upsertQa (replaceQa store ch qa) ch qa =
        replaceQa (replaceQa store ch qa) ch qa := by
      unfold upsertQa; rw [if_pos h2]
    rw [e1, e2, replaceQa_idem]
  · have e1 : upsertQa store ch qa =
        List.insertionSort chLE (store ++ [{ chapterNo := ch, qa := qa }]) := by
      unfold upsertQa; rw [if_neg h]
    have hall : ∀ c ∈ store, c.chapterNo ≠ ch := by
      intro c hc hcc
      exact h (List.any_eq_true.mpr ⟨c, hc, by simp [hcc]⟩)
    have hnew : ({ chapterNo := ch, qa := qa } : QaChapterS α) ∈
        List.insertionSort chLE (store ++ [{ chapterNo := ch, qa := qa }]) := by
      rw [List.mem_insertionSort]
      simp
    have hany2 : (List.insertionSort chLE
        (store ++ [{ chapterNo := ch, qa := qa }])).any
          (fun c => c.chapterNo = ch) = true :=
      List.any_eq_true.mpr ⟨_, hnew, by simp⟩
    have e2 : upsertQa
        (List.insertionSort chLE (store ++ [{ chapterNo := ch, qa := qa }])) ch qa =
        replaceQa
          (List.insertionSort chLE (store ++ [{ chapterNo := ch, qa := qa }])) ch qa := by
      unfold upsertQa; rw [if_pos hany2]
    rw [e1, e2]
    refine replaceQa_of_all_eq _ ch qa ?_
    intro c hc hcc
    rw [List.mem_insertionSort, List.mem_append] at hc
    rcases hc with hc | hc
    · exact absurd hcc (hall c hc)
    · simp only [List.mem_singleton] at hc
      rw [hc]

/-- C3: upserting a chapter numbered "3" into a store holding chapters
"1", "3", "5" replaces the payload of the existing "3" entry in place and
leaves the "1" and "5" entries unchanged and in order; when no entry
matches, a new entry is inserted and the collection is re-sorted by
numeric chapter order (the result is a sorted permutation of the store
plus the new entry). -/
theorem upsertQa_replace_and_insert (c1 c3 c5 : QaChapterS α) (qaNew : List α)
    (h1 : c1.chapterNo = "1") (h3 : c3.chapterNo = "3") (h5 : c5.chapterNo = "5")
    (store : List (QaChapterS α)) (ch : String) (qa2 : List α)
    (hmiss : store.any (fun c => c.chapterNo = ch) = false) :
    upsertQa [c1, c3, c5] "3" qaNew = [c1, { c3 with qa := qaNew }, c5] ∧
    (upsertQa store ch qa2).Perm (store ++ [{ chapterNo := ch, qa := qa2 }]) ∧
    List.Sorted chLE (upsertQa store ch qa2) := by
  have hny : ¬(store.any (fun c => c.chapterNo = ch) = true) := by
    rw [hmiss]; simp
  have e : upsertQa store ch qa2 =
      List.insertionSort chLE (store ++ [{ chapterNo := ch, qa := qa2 }]) := by
    unfold upsertQa; rw [if_neg hny]
  refine ⟨?_, ?_, ?_⟩
  · have d1 : ¬(c1.chapterNo = "3") := by rw [h1]; decide
    have d5 : ¬(c5.chapterNo = "3") := by rw [h5]; decide
    simp [upsertQa, replaceQa, h3, d1, d5]
  · rw [e]
    exact List.perm_insertionSort chLE _
  · rw [e]
    exact List.sorted_insertionSort chLE _

/-- Witness for C3 on a concrete store. -/
theorem upsertQa_replace_and_insert_witness :
    upsertQa [⟨"1", [10]⟩, ⟨"3", [30]⟩, ⟨"5", [50]⟩] "3" [99] =
      [⟨"1", [10]⟩, ⟨"3", [99]⟩, ⟨"5", [50]⟩] ∧
    (upsertQa [⟨"1", [10]⟩] "4" [40]).Perm
      ([⟨"1", [10]⟩] ++ [{ chapterNo := "4", qa := [40] }]) ∧
    List.Sorted chLE (upsertQa ([⟨"1", [10]⟩] : List (QaChapterS Nat)) "4" [40]) :=
  upsertQa_replace_and_insert ⟨"1", [10]⟩ ⟨"3", [30]⟩ ⟨"5", [50]⟩ [99]
    rfl rfl rfl [⟨"1", [10]⟩] "4" [40] (by decide)

/-! ## Hierarchical Node Builder (spec §4.5) -/

/-- Modelled from the spec: a concept-tree node under construction, with
its heading depth (0, 1 or 2 for title1/2/3), label, attached content
items (opaque) and accumulated children. -/
inductive TreeN (α : Type) where
  | mk (depth : Nat) (label : String) (content : List α) (children : List (TreeN α))

def TreeN.nodeDepth : TreeN α → Nat
  | TreeN.mk d _ _ _ => d

def TreeN.appendChild (parent child : TreeN α) : TreeN α :=
  match parent with
  | TreeN.mk d l c ch => TreeN.mk d l c (ch ++ [child])

def TreeN.appendContent (n : TreeN α) (c : α) : TreeN α :=
  match n with
  | TreeN.mk d l cs ch => TreeN.mk d l (cs ++ [c]) ch

/-- Modelled from the spec: one classified paragraph reaching the node
builder — a title1/2/3 heading at its depth, or a content paragraph. -/
inductive BEvent (α : Type) where
  | title (depth : Nat) (label : String)
  | content (c : α)
deriving DecidableEq, Repr

/-- Builder state: the depth stack of currently open nodes (head is the
deepest), the completed top-level nodes, and the structural-error flag
(content before any node aborts the document's conversion). -/
structure BState (α : Type) where
  stack : List (TreeN α) := []
  roots : List (TreeN α) := []
  errored : Bool := false

/-- Modelled from the spec: pop every open node whose depth is ≥ the new
heading's depth, attaching each popped node to the node below it on the
stack (or to the completed top-level sequence when the stack empties). -/
def popGE (d : Nat) : List (TreeN α) → List (TreeN α) →
    List (TreeN α) × List (TreeN α)
  | [], roots => ([], roots)
  | top :: rest, roots =>
    if d ≤ top.nodeDepth then
      match rest with
      | parent :: rest2 => popGE d (parent.appendChild top :: rest2) roots
      | [] => popGE d [] (roots ++ [top])
    else (top :: rest, roots)
termination_by stack _ => stack.length

/-- Modelled from the spec: one transition of the depth-stack builder. -/
def bstep (s : BState α) (e : BEvent α) : BState α :=
  if s.errored then s else
  match e with
  | BEvent.title d l =>
    let p := popGE d s.stack s.roots
    { stack := TreeN.mk d l [] [] :: p.1, roots := p.2, errored := s.errored }
  | BEvent.content c =>
    match s.stack with
    | [] => { s with errored := true }
    | top :: rest => { s with stack := top.appendContent c :: rest }

/-- Run the builder over a classified paragraph stream. -/
def bRun (events : List (BEvent α)) : BState α :=
  events.foldl bstep {}


/-- The depth-level shadow of `popGE`: pop leading depths that are ≥ d. -/
def popD (d : Nat) : List Nat → List Nat
  | [] => []
  | x :: xs => if d ≤ x then popD d xs else x :: xs

theorem popGE_map_depth (d : Nat) :
    ∀ (n : Nat) (stack roots : List (TreeN α)), stack.length ≤ n →
      ((popGE d stack roots).1).map TreeN.nodeDepth =
        popD d (stack.map TreeN.nodeDepth) := by
  intro n
  induction n with
  | zero =>
    intro stack roots h
    rw [Nat.le_zero, List.length_eq_zero] at h
    subst h
    simp [popGE, popD]
  | succ n ih =>
    intro stack roots h
    match stack with
    | [] => simp [popGE, popD]
    | top :: rest =>
      by_cases hd : d ≤ top.nodeDepth
      · cases rest with
        | nil =>
          unfold popGE
          rw [if_pos hd]
          simp [popGE, popD, hd]
        | cons parent rest2 =>
          have hlen : (parent.appendChild top :: rest2).length ≤ n := by
            simp only [List.length_cons] at h ⊢
            omega
          unfold popGE
          rw [if_pos hd, ih _ _ hlen]
          have hpd : (parent.appendChild top).nodeDepth = parent.nodeDepth := by
            cases parent; rfl
          simp [popD, hd, hpd]
      · unfold popGE
        rw [if_neg hd]
        simp [popD, hd]

theorem popD_pairwise (d : Nat) (xs : List Nat)
    (h : xs.Pairwise (· > ·)) : (popD d xs).Pairwise (· > ·) := by
  induction xs with
  | nil => exact List.Pairwise.nil
  | cons x xs ih =>
    rw [List.pairwise_cons] at h
    by_cases hd : d ≤ x
    · simpa [popD, hd] using ih h.2
    · simpa [popD, hd] using List.pairwise_cons.mpr h

theorem popD_eq_filter (d : Nat) (xs : List Nat)
    (h : xs.Pairwise (· > ·)) :
    popD d xs = xs.filter (fun x => x < d) := by
  induction xs with
  | nil => rfl
  | cons x xs ih =>
    rw [List.pairwise_cons] at h
    by_cases hd : d ≤ x
    · have hx : ¬(x < d) := not_lt.mpr hd
      simpa [popD, hd, List.filter_cons, hx] using ih h.2
    · have hx : x < d := not_le.mp hd
      have hall : xs.filter (fun y => y < d) = xs :=
        List.filter_eq_self.mpr fun y hy => by
          simpa using lt_trans (h.1 y hy) hx
      simp [popD, hd, List.filter_cons, hx, hall, ih h.2]

/-- The depth-stack invariant: open depths are strictly decreasing from
the deepest open node downwards. -/
def BInv (s : BState α) : Prop :=
  ((s.stack.map TreeN.nodeDepth)).Pairwise (· > ·)

theorem bstep_title (s : BState α) (d : Nat) (l : String)
    (herr : s.errored = false) :
    bstep s (BEvent.title d l) =
      { stack := TreeN.mk d l [] [] :: (popGE d s.stack s.roots).1,
        roots := (popGE d s.stack s.roots).2,
        errored := false } := by
  simp [bstep, herr]

theorem bstep_BInv (s : BState α) (e : BEvent α) (h : BInv s) :
    BInv (bstep s e) := by
  by_cases herr : s.errored = true
  · simpa [bstep, herr] using h
  · rw [Bool.not_eq_true] at herr
    cases e with
    | title d l =>
      rw [bstep_title s d l herr]
      unfold BInv at h ⊢
      simp only [List.map_cons, List.pairwise_cons]
      rw [popGE_map_depth d s.stack.length s.stack s.roots le_rfl,
        popD_eq_filter d _ h]
      constructor
      · intro x hx
        exact of_decide_eq_true (List.mem_filter.mp hx).2
      · rw [← popD_eq_filter d _ h]
        exact popD_pairwise d _ h
    | content c =>
      cases hst : s.stack with
      | nil =>
        unfold BInv at h ⊢
        simp [bstep, herr, hst]
      | cons top rest =>
        unfold BInv at h ⊢
        rw [hst] at h
        have hpd : (top.appendContent c).nodeDepth = top.nodeDepth := by
          cases top; rfl
        simp only [bstep, herr, Bool.false_eq_true, if_neg (by simp : ¬(false = true)), hst]
        simpa [hpd] using h

theorem bRun_BInv (events : List (BEvent α)) : BInv (bRun events) := by
  have haux : ∀ (l : List (BEvent α)) (s : BState α), BInv s →
      BInv (l.foldl bstep s) := by
    intro l
    induction l with
    | nil => intro s hs; simpa using hs
    | cons e rest ih =>
      intro s hs
      exact ih (bstep s e) (bstep_BInv s e hs)
  exact haux events {} (by simp [BInv])

/-- C5: for every document, opening a heading at depth d first closes
every open node at depth ≥ d (the open stack's depth list becomes d
followed by the previously open depths below d), and at no point are two
nodes at the same depth simultaneously open: the open depths are strictly
decreasing, hence duplicate-free. -/
theorem builder_closes_deeper_and_no_sibling_open (events : List (BEvent α)) :
    (((bRun events).stack.map TreeN.nodeDepth)).Pairwise (· > ·) ∧
    (((bRun events).stack.map TreeN.nodeDepth)).Nodup ∧
    (∀ (d : Nat) (l : String), (bRun events).errored = false →
      ((bRun (events ++ [BEvent.title d l])).stack.map TreeN.nodeDepth) =
        d :: (((bRun events).stack.map TreeN.nodeDepth).filter (fun x => x < d))) := by
  have hinv := bRun_BInv events
  refine ⟨hinv, ?_, ?_⟩
  · exact hinv.imp (fun hgt => Nat.ne_of_gt hgt)
  · intro d l herr
    have hfold : bRun (events ++ [BEvent.title d l]) =
        bstep (bRun events) (BEvent.title d l) := by
      unfold bRun
      rw [List.foldl_append]
      rfl
    rw [hfold, bstep_title _ d l herr]
    simp only [List.map_cons, TreeN.nodeDepth, List.cons.injEq, true_and]
    rw [popGE_map_depth d (bRun events).stack.length _ _ le_rfl,
      popD_eq_filter d _ hinv]

/-- Witness for C5 on a concrete document. -/
theorem builder_closes_deeper_witness :
    ((bRun (α := Nat)
        ([BEvent.title 0 "a", BEvent.title 1 "b", BEvent.title 2 "c"] ++
          [BEvent.title 1 "d"])).stack.map TreeN.nodeDepth) =
      1 :: (((bRun (α := Nat)
        [BEvent.title 0 "a", BEvent.title 1 "b", BEvent.title 2 "c"]).stack.map
          TreeN.nodeDepth).filter (fun x => x < 1)) :=
  (builder_closes_deeper_and_no_sibling_open
    [BEvent.title 0 "a", BEvent.title 1 "b", BEvent.title 2 "c"]).2.2 1 "d"
    (by decide)

/-! ## Image Extractor (spec §4.4) -/

/-- Modelled from the spec: the events seen by the image extractor during
one run — the active node changes, or an embedded image (raw bytes plus
file extension) is encountered. -/
inductive IEvent where
  | node (label : String)
  | image (bytes : List Nat) (ext : String)
deriving DecidableEq, Repr

/-- One image occurrence in the run's trace: its bytes, the filename
assigned to it, and whether it was newly saved (true) or a byte-identical
repeat reusing an existing name (false). -/
structure IEntry where
  bytes : List Nat
  name : String
  isNew : Bool
deriving DecidableEq, Repr

/-- Extractor state: active node label, per-node index counter, the
content-hash table of images already seen in this run (bytes to assigned
name), the files written, and the trace of all assignments. -/
structure IState where
  curLabel : String := ""
  counter : Nat := 0
  seen : List (List Nat × String) := []
  written : List (List Nat × String) := []
  trace : List IEntry := []
deriving DecidableEq, Repr

def lookupSeen (seen : List (List Nat × String)) (b : List Nat) : Option String :=
  (seen.find? (fun p => p.1 = b)).map Prod.snd

/-- Modelled from the spec: sanitization strips punctuation and replaces
whitespace with hyphens. -/
def sanitizeChar (c : Char) : Option Char :=
  if c = ' ' ∨ c = '\t' ∨ c = '\n' then some '-'
  else if c ∈ ['.', ',', ':', ';', '!', '?', '(', ')'] then none
  else some c

def sanitize (s : String) : String :=
  String.mk (s.toList.filterMap sanitizeChar)

/-- Modelled from the spec: the naming rule sanitized-label, hyphen,
index, dot, extension. -/
def imageName (label : String) (idx : Nat) (ext : String) : String :=
  sanitize label ++ "-" ++ toString idx ++ "." ++ ext

/-- Modelled from the spec: one step of the extractor.  A node change
resets the per-node index; a new image is saved under the next index and
recorded in the hash table; a byte-identical repeat reuses the existing
name and writes nothing. -/
def istep (s : IState) (e : IEvent) : IState :=
  match e with
  | IEvent.node l => { s with curLabel := l, counter := 0 }
  | IEvent.image b ext =>
    match lookupSeen s.seen b with
    | some name => { s with trace := s.trace ++ [⟨b, name, false⟩] }
    | none =>
      let name := imageName s.curLabel (s.counter + 1) ext
      { s with counter := s.counter + 1,
               seen := s.seen ++ [(b, name)],
               written := s.written ++ [(b, name)],
               trace := s.trace ++ [⟨b, name, true⟩] }

def iRun (events : List IEvent) : IState :=
  events.foldl istep {}

theorem lookupSeen_append_of_some (seen ext2 : List (List Nat × String))
    (b : List Nat) (n : String) (h : lookupSeen seen b = some n) :
    lookupSeen (seen ++ ext2) b = some n := by
  induction seen with
  | nil => simp [lookupSeen] at h
  | cons p rest ih =>
    by_cases hp : p.1 = b
    · simpa [lookupSeen, List.find?_cons_of_pos, hp] using h
    · have h' : lookupSeen rest b = some n := by
        simpa [lookupSeen, List.find?_cons_of_neg, hp] using h
      simpa [lookupSeen, List.find?_cons_of_neg, hp] using ih h'

theorem lookupSeen_append_self (seen : List (List Nat × String))
    (b : List Nat) (n : String) (h : lookupSeen seen b = none) :
    lookupSeen (seen ++ [(b, n)]) b = some n := by
  induction seen with
  | nil => simp [lookupSeen]
  | cons p rest ih =>
    by_cases hp : p.1 = b
    · simp [lookupSeen, List.find?_cons_of_pos, hp] at h
    · have h' : lookupSeen rest b = none := by
        simpa [lookupSeen, List.find?_cons_of_neg, hp] using h
      simpa [lookupSeen, List.find?_cons_of_neg, hp] using ih h'

theorem lookupSeen_none_not_mem (seen : List (List Nat × String))
    (b : List Nat) (h : lookupSeen seen b = none) :
    b ∉ seen.map Prod.fst := by
  induction seen with
  | nil => simp
  | cons p rest ih =>
    by_cases hp : p.1 = b
    · simp [lookupSeen, List.find?_cons_of_pos, hp] at h
    · have h' : lookupSeen rest b = none := by
        simpa [lookupSeen, List.find?_cons_of_neg, hp] using h
      simp only [List.map_cons, List.mem_cons]
      rintro (hb | hb)
      · exact hp hb.symm
      · exact ih h' hb

/-- The run invariant for the image extractor. -/
def IInv (s : IState) : Prop :=
  (∀ t ∈ s.trace, lookupSeen s.seen t.bytes = some t.name) ∧
  s.written = s.seen ∧
  (s.seen.map Prod.fst).Nodup ∧
  (∀ t ∈ s.trace, t.isNew = true →
    ∃ lab k ext, 1 ≤ k ∧ t.name = imageName lab k ext)

theorem istep_IInv (s : IState) (e : IEvent) (h : IInv s) : IInv (istep s e) := by
  obtain ⟨h1, h2, h3, h4⟩ := h
  cases e with
  | node l =>
    exact ⟨h1, h2, h3, h4⟩
  | image b ext =>
    cases hl : lookupSeen s.seen b with
    | some name =>
      have hstep : istep s (IEvent.image b ext) =
          { s with trace := s.trace ++ [⟨b, name, false⟩] } := by
        simp [istep, hl]
      rw [hstep]
      refine ⟨?_, h2, h3, ?_⟩
      · intro t ht
        simp only [List.mem_append, List.mem_singleton] at ht
        rcases ht with ht | ht
        · exact h1 t ht
        · subst ht; exact hl
      · intro t ht hnew
        simp only [List.mem_append, List.mem_singleton] at ht
        rcases ht with ht | ht
        · exact h4 t ht hnew
        · subst ht; simp at hnew
    | none =>
      have hstep : istep s (IEvent.image b ext) =
          { s with counter := s.counter + 1,
                   seen := s.seen ++ [(b, imageName s.curLabel (s.counter + 1) ext)],
                   written := s.written ++ [(b, imageName s.curLabel (s.counter + 1) ext)],
                   trace := s.trace ++
                     [⟨b, imageName s.curLabel (s.counter + 1) ext, true⟩] } := by
        simp [istep, hl]
      rw [hstep]
      refine ⟨?_, ?_, ?_, ?_⟩
      · intro t ht
        simp only [List.mem_append, List.mem_singleton] at ht
        rcases ht with ht | ht
        · exact lookupSeen_append_of_some _ _ _ _ (h1 t ht)
        · subst ht
          exact lookupSeen_append_self _ _ _ hl
      · rw [h2]
      · simp only [List.map_append, List.map_cons, List.map_nil]
        rw [List.nodup_append]
        exact ⟨h3, List.nodup_singleton b,
          by simpa using fun hmem => lookupSeen_none_not_mem _ _ hl hmem⟩
      · intro t ht hnew
        simp only [List.mem_append, List.mem_singleton] at ht
        rcases ht with ht | ht
        · exact h4 t ht hnew
        · subst ht
          exact ⟨s.curLabel, s.counter + 1, ext, Nat.le_add_left 1 s.counter, rfl⟩

theorem iRun_IInv (events : List IEvent) : IInv (iRun events) := by
  have haux : ∀ (l : List IEvent) (s : IState), IInv s → IInv (l.foldl istep s) := by
    intro l
    induction l with
    | nil => intro s hs; simpa using hs
    | cons e rest ih => intro s hs; exact ih (istep s e) (istep_IInv s e hs)
  exact haux events {} (by refine ⟨?_, rfl, ?_, ?_⟩ <;> simp [IInv])

/-- C7: in every extraction run, newly assigned image filenames follow
sanitized-label, hyphen, index, dot, extension with index at least 1; the
per-node index resets on a node change and the first new image of a node
gets index 1; two byte-identical images in one run receive the same
assigned filename; and no duplicate file is written (the written files
have pairwise distinct byte contents). -/
theorem image_naming_and_dedup (events : List IEvent) :
    (∀ t1 ∈ (iRun events).trace, ∀ t2 ∈ (iRun events).trace,
        t1.bytes = t2.bytes → t1.name = t2.name) ∧
    (((iRun events).written.map Prod.fst).Nodup) ∧
    (∀ t ∈ (iRun events).trace, t.isNew = true →
        ∃ lab k ext, 1 ≤ k ∧ t.name = imageName lab k ext) ∧
    (∀ l : String, (iRun (events ++ [IEvent.node l])).counter = 0) ∧
    (∀ (l : String) (b : List Nat) (ext : String),
        lookupSeen (iRun (events ++ [IEvent.node l])).seen b = none →
        (iRun (events ++ [IEvent.node l, IEvent.image b ext])).trace =
          (iRun (events ++ [IEvent.node l])).trace ++
            [⟨b, imageName l 1 ext, true⟩]) := by
  obtain ⟨h1, h2, h3, h4⟩ := iRun_IInv events
  refine ⟨?_, ?_, h4, ?_, ?_⟩
  · intro t1 ht1 t2 ht2 hb
    have e1 := h1 t1 ht1
    have e2 := h1 t2 ht2
    rw [hb] at e1
    rw [e1] at e2
    exact (Option.some.injEq _ _).mp e2
  · rw [h2]
    exact h3
  · intro l
    unfold iRun
    rw [List.foldl_append]
    rfl
  · intro l b ext hnone
    have hsplit : iRun (events ++ [IEvent.node l, IEvent.image b ext]) =
        istep (iRun (events ++ [IEvent.node l])) (IEvent.image b ext) := by
      unfold iRun
      rw [show events ++ [IEvent.node l, IEvent.image b ext] =
        (events ++ [IEvent.node l]) ++ [IEvent.image b ext] by simp,
        List.foldl_append]
      rfl
    have hcnt : (iRun (events ++ [IEvent.node l])).counter = 0 := by
      unfold iRun
      rw [List.foldl_append]
      rfl
    have hlbl : (iRun (events ++ [IEvent.node l])).curLabel = l := by
      unfold iRun
      rw [List.foldl_append]
      rfl
    rw [hsplit]
    simp only [istep, hnone, hcnt, hlbl]

/-- Witness for C7 on a concrete run with a repeated image. -/
theorem image_naming_and_dedup_witness :
    ((iRun [IEvent.node "a", IEvent.image [7] "png"]).written.map Prod.fst).Nodup ∧
    (iRun ([IEvent.node "a", IEvent.image [7] "png"] ++
        [IEvent.node "b", IEvent.image [9] "png"])).trace =
      (iRun ([IEvent.node "a", IEvent.image [7] "png"] ++
        [IEvent.node "b"])).trace ++ [⟨[9], imageName "b" 1 "png", true⟩] := by
  constructor
  · exact (image_naming_and_dedup [IEvent.node "a", IEvent.image [7] "png"]).2.1
  · have h := (image_naming_and_dedup
      [IEvent.node "a", IEvent.image [7] "png"]).2.2.2.2 "b" [9] "png" (by decide)
    simpa using h

/-! ## TreeNode.jsx parseMarkdown (src/src/components/TreeNode.jsx lines 104-151)

The JavaScript splits the text by the regex patterns for info words and
bold spans.  Both patterns use lazy dot (which does not match a newline),
so the matchers below implement exactly that backtracking behaviour on
character lists. -/

/-- Lazy scan for a two-character closing delimiter: consume characters,
none of which may be a newline, up to the first occurrence of the
delimiter; return the consumed span and the remainder after the
delimiter. -/
def scanClose (a b : Char) : List Char → Option (List Char × List Char)
  | c1 :: c2 :: rest =>
    if c1 = a ∧ c2 = b then some ([], rest)
    else if c1 = '\n' then none
    else (scanClose a b (c2 :: rest)).map (fun p => (c1 :: p.1, p.2))
  | _ => none

theorem scanClose_eq (a b : Char) : ∀ (cs inner post : List Char),
    scanClose a b cs = some (inner, post) →
    cs = inner ++ a :: b :: post := by
  intro cs
  induction cs with
  | nil => intro inner post h; simp [scanClose] at h
  | cons c1 rest ih =>
    intro inner post h
    cases rest with
    | nil => simp [scanClose] at h
    | cons c2 rest2 =>
      by_cases h1 : c1 = a ∧ c2 = b
      · simp only [scanClose, if_pos h1, Option.some.injEq, Prod.mk.injEq] at h
        obtain ⟨hi, hp⟩ := h
        subst hi; subst hp
        simp [h1.1, h1.2]
      · by_cases h2 : c1 = '\n'
        · simp [scanClose, if_neg h1, if_pos h2] at h
        · simp only [scanClose, if_neg h1, if_neg h2] at h
          cases hsc : scanClose a b (c2 :: rest2) with
          | none => rw [hsc] at h; simp at h
          | some p =>
            rw [hsc] at h
            simp only [Option.map_some', Option.some.injEq, Prod.mk.injEq] at h
            obtain ⟨hi, hp⟩ := h
            subst hi; subst hp
            have := ih p.1 p.2 (by rw [hsc])
            rw [List.cons_append, ← this]

/-- First (leftmost, lazy) match of the bold pattern star-star lazy-dot
star-star: returns the text before the match, the inner span, and the
text after the match. -/
def boldFirst : List Char → Option (List Char × List Char × List Char)
  | c1 :: c2 :: rest =>
    if c1 = '*' ∧ c2 = '*' then
      match scanClose '*' '*' rest with
      | some (inner, post) => some ([], inner, post)
      | none => (boldFirst (c2 :: rest)).map (fun p => (c1 :: p.1, p.2.1, p.2.2))
    else (boldFirst (c2 :: rest)).map (fun p => (c1 :: p.1, p.2.1, p.2.2))
  | _ => none

theorem boldFirst_eq : ∀ (cs pre inner post : List Char),
    boldFirst cs = some (pre, inner, post) →
    cs = pre ++ '*' :: '*' :: (inner ++ '*' :: '*' :: post) := by
  intro cs
  induction cs with
  | nil => intro pre inner post h; simp [boldFirst] at h
  | cons c1 rest ih =>
    intro pre inner post h
    cases rest with
    | nil => simp [boldFirst] at h
    | cons c2 rest2 =>
      by_cases h1 : c1 = '*' ∧ c2 = '*'
      · simp only [boldFirst, if_pos h1] at h
        cases hsc : scanClose '*' '*' rest2 with
        | none =>
          rw [hsc] at h
          cases hb : boldFirst (c2 :: rest2) with
          | none => rw [hb] at h; simp at h
          | some p =>
            rw [hb] at h
            simp only [Option.map_some', Option.some.injEq, Prod.mk.injEq] at h
            obtain ⟨hpre, hinner, hpost⟩ := h
            subst hpre; subst hinner; subst hpost
            have := ih p.1 p.2.1 p.2.2 (by rw [hb])
            rw [List.cons_append, ← this]
        | some q =>
          obtain ⟨qi, qp⟩ := q
          rw [hsc] at h
          simp only [Option.some.injEq, Prod.mk.injEq] at h
          obtain ⟨hpre, hinner, hpost⟩ := h
          subst hpre; subst hinner; subst hpost
          have hrec := scanClose_eq '*' '*' rest2 qi qp hsc
          simp [h1.1, h1.2, hrec]
      · simp only [boldFirst, if_neg h1] at h
        cases hb : boldFirst (c2 :: rest2) with
        | none => rw [hb] at h; simp at h
        | some p =>
          rw [hb] at h
          simp only [Option.map_some', Option.some.injEq, Prod.mk.injEq] at h
          obtain ⟨hpre, hinner, hpost⟩ := h
          subst hpre; subst hinner; subst hpost
          have := ih p.1 p.2.1 p.2.2 (by rw [hb])
          rw [List.cons_append, ← this]

theorem boldFirst_post_length (cs pre inner post : List Char)
    (h : boldFirst cs = some (pre, inner, post)) :
    post.length < cs.length := by
  have he := boldFirst_eq cs pre inner post h
  rw [he]
  simp only [List.length_append, List.length_cons]
  omega

/-- The source text of one bold span: two stars, inner text, two stars. -/
def boldSpan (inner : List Char) : List Char :=
  '*' :: '*' :: (inner ++ ['*', '*'])

/-- Fuelled splitter for the bold regex with its capture group; the fuel
only needs to exceed the number of matches, and the input length always
suffices. -/
def boldSplitF : Nat → List Char → List (List Char)
  | 0, cs => [cs]
  | n + 1, cs =>
    match boldFirst cs with
    | none => [cs]
    | some (pre, inner, post) => pre :: boldSpan inner :: boldSplitF n post

/-- The JavaScript split by the bold regex with its capture group: the
pieces alternate between plain text and captured bold spans, and
concatenate back to the input. -/
def boldSplit (cs : List Char) : List (List Char) :=
  boldSplitF cs.length cs

theorem boldSplitF_join : ∀ (n : Nat) (cs : List Char), cs.length ≤ n →
    (boldSplitF n cs).join = cs := by
  intro n
  induction n with
  | zero =>
    intro cs h
    rw [Nat.le_zero, List.length_eq_zero] at h
    subst h
    rfl
  | succ n ih =>
    intro cs h
    rw [boldSplitF]
    cases hb : boldFirst cs with
    | none => simp
    | some p =>
      obtain ⟨pre, inner, post⟩ := p
      have he := boldFirst_eq cs pre inner post hb
      have hlen : post.length ≤ n := by
        have := boldFirst_post_length cs pre inner post hb
        omega
      simp only [List.join_cons, ih post hlen]
      rw [he]
      simp [boldSpan]

theorem boldSplit_join (cs : List Char) : (boldSplit cs).join = cs :=
  boldSplitF_join cs.length cs le_rfl

/-- Lazy scan for the middle and end of the info pattern: consume word
characters (no newline) up to a double-bar, then lazily up to a
double-close-bracket; on a failed tail the word scan resumes one
character further, as regex backtracking does. -/
def scanInfo : List Char → Option (List Char × List Char × List Char)
  | c1 :: c2 :: rest =>
    if c1 = '|' ∧ c2 = '|' then
      match scanClose ']' ']' rest with
      | some (i, post) => some ([], i, post)
      | none => (scanInfo (c2 :: rest)).map (fun p => (c1 :: p.1, p.2.1, p.2.2))
    else if c1 = '\n' then none
    else (scanInfo (c2 :: rest)).map (fun p => (c1 :: p.1, p.2.1, p.2.2))
  | _ => none

theorem scanInfo_eq : ∀ (cs w i post : List Char),
    scanInfo cs = some (w, i, post) →
    cs = w ++ '|' :: '|' :: (i ++ ']' :: ']' :: post) := by
  intro cs
  induction cs with
  | nil => intro w i post h; simp [scanInfo] at h
  | cons c1 rest ih =>
    intro w i post h
    cases rest with
    | nil => simp [scanInfo] at h
    | cons c2 rest2 =>
      by_cases h1 : c1 = '|' ∧ c2 = '|'
      · simp only [scanInfo, if_pos h1] at h
        cases hsc : scanClose ']' ']' rest2 with
        | none =>
          rw [hsc] at h
          cases hb : scanInfo (c2 :: rest2) with
          | none => rw [hb] at h; simp at h
          | some p =>
            rw [hb] at h
            simp only [Option.map_some', Option.some.injEq, Prod.mk.injEq] at h
            obtain ⟨hw, hi, hp⟩ := h
            subst hw; subst hi; subst hp
            have := ih p.1 p.2.1 p.2.2 (by rw [hb])
            rw [List.cons_append, ← this]
        | some q =>
          obtain ⟨qi, qp⟩ := q
          rw [hsc] at h
          simp only [Option.some.injEq, Prod.mk.injEq] at h
          obtain ⟨hw, hi, hp⟩ := h
          subst hw; subst hi; subst hp
          have hrec := scanClose_eq ']' ']' rest2 qi qp hsc
          simp [h1.1, h1.2, hrec]
      · by_cases h2 : c1 = '\n'
        · simp [scanInfo, if_neg h1, if_pos h2] at h
        · simp only [scanInfo, if_neg h1, if_neg h2] at h
          cases hb : scanInfo (c2 :: rest2) with
          | none => rw [hb] at h; simp at h
          | some p =>
            rw [hb] at h
            simp only [Option.map_some', Option.some.injEq, Prod.mk.injEq] at h
            obtain ⟨hw, hi, hp⟩ := h
            subst hw; subst hi; subst hp
            have := ih p.1 p.2.1 p.2.2 (by rw [hb])
            rw [List.cons_append, ← this]

/-- First (leftmost, lazy) match of the info pattern double-open-bracket
lazy-dot double-bar lazy-dot double-close-bracket: returns the text
before the match, the word part, the info part, and the text after. -/
def infoFirst : List Char → Option (List Char × List Char × List Char × List Char)
  | c1 :: c2 :: rest =>
    if c1 = '[' ∧ c2 = '[' then
      match scanInfo rest with
      | some (w, i, post) => some ([], w, i, post)
      | none => (infoFirst (c2 :: rest)).map (fun p => (c1 :: p.1, p.2))
    else (infoFirst (c2 :: rest)).map (fun p => (c1 :: p.1, p.2))
  | _ => none

theorem infoFirst_eq : ∀ (cs pre w i post : List Char),
    infoFirst cs = some (pre, w, i, post) →
    cs = pre ++ '[' :: '[' :: (w ++ '|' :: '|' :: (i ++ ']' :: ']' :: post)) := by
  intro cs
  induction cs with
  | nil => intro pre w i post h; simp [infoFirst] at h
  | cons c1 rest ih =>
    intro pre w i post h
    cases rest with
    | nil => simp [infoFirst] at h
    | cons c2 rest2 =>
      by_cases h1 : c1 = '[' ∧ c2 = '['
      · simp only [infoFirst, if_pos h1] at h
        cases hsc : scanInfo rest2 with
        | none =>
          rw [hsc] at h
          cases hb : infoFirst (c2 :: rest2) with
          | none => rw [hb] at h; simp at h
          | some p =>
            obtain ⟨pp, pw, pi, pq⟩ := p
            rw [hb] at h
            simp only [Option.map_some', Option.some.injEq, Prod.mk.injEq] at h
            obtain ⟨hpre, hw, hi, hp⟩ := h
            subst hpre; subst hw; subst hi; subst hp
            have := ih pp pw pi pq hb
            rw [List.cons_append, ← this]
        | some q =>
          obtain ⟨qw, qi, qp⟩ := q
          rw [hsc] at h
          simp only [Option.some.injEq, Prod.mk.injEq] at h
          obtain ⟨hpre, hw, hi, hp⟩ := h
          subst hpre; subst hw; subst hi; subst hp
          have hrec := scanInfo_eq rest2 qw qi qp hsc
          simp [h1.1, h1.2, hrec]
      · simp only [infoFirst, if_neg h1] at h
        cases hb : infoFirst (c2 :: rest2) with
        | none => rw [hb] at h; simp at h
        | some p =>
          obtain ⟨pp, pw, pi, pq⟩ := p
          rw [hb] at h
          simp only [Option.map_some', Option.some.injEq, Prod.mk.injEq] at h
          obtain ⟨hpre, hw, hi, hp⟩ := h
          subst hpre; subst hw; subst hi; subst hp
          have := ih pp pw pi pq hb
          rw [List.cons_append, ← this]

/-- The source text of one info marker: double-open-bracket, word,
double-bar, info, double-close-bracket. -/
def infoSeg (w i : List Char) : List Char :=
  '[' :: '[' :: (w ++ '|' :: '|' :: (i ++ [']', ']']))

theorem infoFirst_post_length (cs pre w i post : List Char)
    (h : infoFirst cs = some (pre, w, i, post)) :
    post.length < cs.length := by
  have he := infoFirst_eq cs pre w i post h
  rw [he]
  simp only [List.length_append, List.length_cons]
  omega

/-- Fuelled splitter for the info regex with its capture group. -/
def infoSplitF : Nat → List Char → List (List Char)
  | 0, cs => [cs]
  | n + 1, cs =>
    match infoFirst cs with
    | none => [cs]
    | some (pre, w, i, post) => pre :: infoSeg w i :: infoSplitF n post

/-- The JavaScript split by the info regex with its capture group. -/
def infoSplit (cs : List Char) : List (List Char) :=
  infoSplitF cs.length cs

theorem infoSplitF_join : ∀ (n : Nat) (cs : List Char), cs.length ≤ n →
    (infoSplitF n cs).join = cs := by
  intro n
  induction n with
  | zero =>
    intro cs h
    rw [Nat.le_zero, List.length_eq_zero] at h
    subst h
    rfl
  | succ n ih =>
    intro cs h
    rw [infoSplitF]
    cases hb : infoFirst cs with
    | none => simp
    | some p =>
      obtain ⟨pre, w, i, post⟩ := p
      have he := infoFirst_eq cs pre w i post hb
      have hlen : post.length ≤ n := by
        have := infoFirst_post_length cs pre w i post hb
        omega
      simp only [List.join_cons, ih post hlen]
      rw [he]
      simp [infoSeg]

theorem infoSplit_join (cs : List Char) : (infoSplit cs).join = cs :=
  infoSplitF_join cs.length cs le_rfl

/-- Anchored tail of the info pattern: lazy-dot double-close-bracket
end-of-string, as used by the per-segment anchored match. -/
def scanAnchClose : List Char → Option (List Char)
  | c1 :: c2 :: rest =>
    if c1 = ']' ∧ c2 = ']' ∧ rest = [] then some []
    else if c1 = '\n' then none
    else (scanAnchClose (c2 :: rest)).map (fun i => c1 :: i)
  | _ => none

theorem scanAnchClose_eq : ∀ (cs i : List Char),
    scanAnchClose cs = some i → cs = i ++ [']', ']'] := by
  intro cs
  induction cs with
  | nil => intro i h; simp [scanAnchClose] at h
  | cons c1 rest ih =>
    intro i h
    cases rest with
    | nil => simp [scanAnchClose] at h
    | cons c2 rest2 =>
      by_cases h1 : c1 = ']' ∧ c2 = ']' ∧ rest2 = []
      · simp only [scanAnchClose, if_pos h1, Option.some.injEq] at h
        subst h
        simp [h1.1, h1.2.1, h1.2.2]
      · by_cases h2 : c1 = '\n'
        · simp [scanAnchClose, if_neg h1, if_pos h2] at h
        · simp only [scanAnchClose, if_neg h1, if_neg h2] at h
          cases hb : scanAnchClose (c2 :: rest2) with
          | none => rw [hb] at h; simp at h
          | some j =>
            rw [hb] at h
            simp only [Option.map_some', Option.some.injEq] at h
            subst h
            have := ih j hb
            rw [List.cons_append, ← this]

theorem scanAnchClose_scanClose : ∀ (cs i : List Char),
    scanAnchClose cs = some i → ∃ q, scanClose ']' ']' cs = some q := by
  intro cs
  induction cs with
  | nil => intro i h; simp [scanAnchClose] at h
  | cons c1 rest ih =>
    intro i h
    cases rest with
    | nil => simp [scanAnchClose] at h
    | cons c2 rest2 =>
      by_cases hcl : c1 = ']' ∧ c2 = ']'
      · exact ⟨([], rest2), by simp [scanClose, if_pos hcl]⟩
      · have h1 : ¬(c1 = ']' ∧ c2 = ']' ∧ rest2 = []) := fun hx => hcl ⟨hx.1, hx.2.1⟩
        by_cases h2 : c1 = '\n'
        · simp [scanAnchClose, if_neg h1, if_pos h2] at h
        · simp only [scanAnchClose, if_neg h1, if_neg h2] at h
          cases hb : scanAnchClose (c2 :: rest2) with
          | none => rw [hb] at h; simp at h
          | some j =>
            obtain ⟨q, hq⟩ := ih j hb
            exact ⟨(c1 :: q.1, q.2), by simp [scanClose, if_neg hcl, if_neg h2, hq]⟩

/-- Anchored middle of the info pattern: lazy-dot double-bar, then the
anchored tail, with regex backtracking over later double-bars. -/
def scanAnchInfo : List Char → Option (List Char × List Char)
  | c1 :: c2 :: rest =>
    if c1 = '|' ∧ c2 = '|' then
      match scanAnchClose rest with
      | some i => some ([], i)
      | none => (scanAnchInfo (c2 :: rest)).map (fun p => (c1 :: p.1, p.2))
    else if c1 = '\n' then none
    else (scanAnchInfo (c2 :: rest)).map (fun p => (c1 :: p.1, p.2))
  | _ => none

theorem scanAnchInfo_eq : ∀ (cs w i : List Char),
    scanAnchInfo cs = some (w, i) →
    cs = w ++ '|' :: '|' :: (i ++ [']', ']']) := by
  intro cs
  induction cs with
  | nil => intro w i h; simp [scanAnchInfo] at h
  | cons c1 rest ih =>
    intro w i h
    cases rest with
    | nil => simp [scanAnchInfo] at h
    | cons c2 rest2 =>
      by_cases h1 : c1 = '|' ∧ c2 = '|'
      · simp only [scanAnchInfo, if_pos h1] at h
        cases hsc : scanAnchClose rest2 with
        | none =>
          rw [hsc] at h
          cases hb : scanAnchInfo (c2 :: rest2) with
          | none => rw [hb] at h; simp at h
          | some p =>
            obtain ⟨pw, pi⟩ := p
            rw [hb] at h
            simp only [Option.map_some', Option.some.injEq, Prod.mk.injEq] at h
            obtain ⟨hw, hi⟩ := h
            subst hw; subst hi
            have := ih pw pi hb
            rw [List.cons_append, ← this]
        | some j =>
          rw [hsc] at h
          simp only [Option.some.injEq, Prod.mk.injEq] at h
          obtain ⟨hw, hi⟩ := h
          subst hw
          have hrec := scanAnchClose_eq rest2 j hsc
          rw [← hi]
          simp [h1.1, h1.2, hrec]
      · by_cases h2 : c1 = '\n'
        · simp [scanAnchInfo, if_neg h1, if_pos h2] at h
        · simp only [scanAnchInfo, if_neg h1, if_neg h2] at h
          cases hb : scanAnchInfo (c2 :: rest2) with
          | none => rw [hb] at h; simp at h
          | some p =>
            obtain ⟨pw, pi⟩ := p
            rw [hb] at h
            simp only [Option.map_some', Option.some.injEq, Prod.mk.injEq] at h
            obtain ⟨hw, hi⟩ := h
            subst hw; subst hi
            have := ih pw pi hb
            rw [List.cons_append, ← this]

theorem scanAnchInfo_scanInfo : ∀ (cs w i : List Char),
    scanAnchInfo cs = some (w, i) → ∃ q, scanInfo cs = some q := by
  intro cs
  induction cs with
  | nil => intro w i h; simp [scanAnchInfo] at h
  | cons c1 rest ih =>
    intro w i h
    cases rest with
    | nil => simp [scanAnchInfo] at h
    | cons c2 rest2 =>
      by_cases h1 : c1 = '|' ∧ c2 = '|'
      · simp only [scanAnchInfo, if_pos h1] at h
        cases hsc : scanAnchClose rest2 with
        | none =>
          rw [hsc] at h
          cases hb : scanAnchInfo (c2 :: rest2) with
          | none => rw [hb] at h; simp at h
          | some p =>
            obtain ⟨pw, pi⟩ := p
            obtain ⟨q, hq⟩ := ih pw pi hb
            cases hsc2 : scanClose ']' ']' rest2 with
            | none =>
              exact ⟨(c1 :: q.1, q.2.1, q.2.2),
                by simp [scanInfo, if_pos h1, hsc2, hq]⟩
            | some r =>
              exact ⟨([], r.1, r.2), by simp [scanInfo, if_pos h1, hsc2]⟩
        | some j =>
          obtain ⟨r, hr⟩ := scanAnchClose_scanClose rest2 j hsc
          exact ⟨([], r.1, r.2), by simp [scanInfo, if_pos h1, hr]⟩
      · by_cases h2 : c1 = '\n'
        · simp [scanAnchInfo, if_neg h1, if_pos h2] at h
        · simp only [scanAnchInfo, if_neg h1, if_neg h2] at h
          cases hb : scanAnchInfo (c2 :: rest2) with
          | none => rw [hb] at h; simp at h
          | some p =>
            obtain ⟨pw, pi⟩ := p
            obtain ⟨q, hq⟩ := ih pw pi hb
            exact ⟨(c1 :: q.1, q.2.1, q.2.2),
              by simp [scanInfo, if_neg h1, if_neg h2, hq]⟩

/-- The per-segment anchored info match of parseMarkdown:
caret double-open-bracket capture double-bar capture
double-close-bracket dollar. -/
def infoAnchored : List Char → Option (List Char × List Char)
  | c1 :: c2 :: rest =>
    if c1 = '[' ∧ c2 = '[' then scanAnchInfo rest else none
  | _ => none

theorem infoAnchored_eq (cs w i : List Char)
    (h : infoAnchored cs = some (w, i)) : cs = infoSeg w i := by
  cases cs with
  | nil => simp [infoAnchored] at h
  | cons c1 rest =>
    cases rest with
    | nil => simp [infoAnchored] at h
    | cons c2 rest2 =>
      by_cases h1 : c1 = '[' ∧ c2 = '['
      · simp only [infoAnchored, if_pos h1] at h
        have := scanAnchInfo_eq rest2 w i h
        simp [infoSeg, h1.1, h1.2, this]
      · simp [infoAnchored, if_neg h1] at h

theorem infoAnchored_infoFirst (cs w i : List Char)
    (h : infoAnchored cs = some (w, i)) : ∃ q, infoFirst cs = some q := by
  cases cs with
  | nil => simp [infoAnchored] at h
  | cons c1 rest =>
    cases rest with
    | nil => simp [infoAnchored] at h
    | cons c2 rest2 =>
      by_cases h1 : c1 = '[' ∧ c2 = '['
      · simp only [infoAnchored, if_pos h1] at h
        obtain ⟨q, hq⟩ := scanAnchInfo_scanInfo rest2 w i h
        exact ⟨([], q.1, q.2.1, q.2.2), by simp [infoFirst, if_pos h1, hq]⟩
      · simp [infoAnchored, if_neg h1] at h

/-- One rendered fragment of parseMarkdown: an info word span, or one
piece of a bold split (captured bold spans and plain text pieces are both
subjected to the same starts-with and ends-with delimiter test by the
code). -/
inductive MFrag where
  | infoF (w i : List Char)
  | partF (p : List Char)
deriving DecidableEq, Repr

def fragSource : MFrag → List Char
  | MFrag.infoF w i => infoSeg w i
  | MFrag.partF p => p

/-- The JavaScript test part.startsWith two stars and part.endsWith two
stars. -/
def boldShaped (p : List Char) : Bool :=
  decide (p.take 2 = ['*', '*'] ∧ p.drop (p.length - 2) = ['*', '*'])

/-- The JavaScript part.slice(2, -2). -/
def stripDelims (p : List Char) : List Char :=
  (p.drop 2).take (p.length - 4)

/-- The visible text a fragment renders: the word for an info span; for a
split piece, the piece with its delimiters stripped when it is
bold-shaped, else the piece itself. -/
def fragVisible : MFrag → List Char
  | MFrag.infoF w _ => w
  | MFrag.partF p => if boldShaped p then stripDelims p else p

/-- Per-segment processing of parseMarkdown: an anchored info match
renders the word; any other segment is split by the bold pattern. -/
def segFrags (seg : List Char) : List MFrag :=
  match infoAnchored seg with
  | some (w, i) => [MFrag.infoF w i]
  | none => (boldSplit seg).map MFrag.partF

/-- parseMarkdown of TreeNode.jsx: null or empty text yields no
fragments; otherwise the text is split by the info pattern and each
segment is processed. -/
def parseMarkdownFrags : Option (List Char) → List MFrag
  | none => []
  | some cs => if cs = [] then [] else ((infoSplit cs).map segFrags).join

/-- The concatenated visible text of the rendered fragments. -/
def visibleText (cs : List Char) : List Char :=
  ((parseMarkdownFrags (some cs)).map fragVisible).join

theorem segFrags_source (seg : List Char) :
    ((segFrags seg).map fragSource).join = seg := by
  unfold segFrags
  cases hA : infoAnchored seg with
  | some p =>
    obtain ⟨w, i⟩ := p
    have := infoAnchored_eq seg w i hA
    simp [fragSource, this]
  | none =>
    simp only [List.map_map]
    have hcomp : fragSource ∘ MFrag.partF = id := rfl
    rw [hcomp, List.map_id]
    exact boldSplit_join seg

theorem segsSource (L : List (List Char)) :
    (((L.map segFrags).join).map fragSource).join = L.join := by
  induction L with
  | nil => rfl
  | cons seg L ih =>
    simp only [List.map_cons, List.join_cons, List.map_append,
      List.join_append, ih, segFrags_source]

theorem infoSplit_of_none (cs : List Char) (h : infoFirst cs = none) :
    infoSplit cs = [cs] := by
  unfold infoSplit
  cases hn : cs.length with
  | zero => rfl
  | succ n => simp [infoSplitF, h]

theorem boldSplit_of_none (cs : List Char) (h : boldFirst cs = none) :
    boldSplit cs = [cs] := by
  unfold boldSplit
  cases hn : cs.length with
  | zero => rfl
  | succ n => simp [boldSplitF, h]

/-- C9 counterexample: the two-character string of two stars contains
neither a complete info marker nor a complete bold span, yet
parseMarkdown renders it as empty visible text, not verbatim. -/
theorem parseMarkdown_verbatim_counterexample :
    infoFirst ['*', '*'] = none ∧
    boldFirst ['*', '*'] = none ∧
    visibleText ['*', '*'] = [] ∧
    (['*', '*'] : List Char) ≠ [] := by
  decide

/-- C9 (amended): parseMarkdown partitions the input — the fragments'
source texts concatenate back to the input — and renders each info
marker as its word part and each split piece with its double-star
delimiters stripped exactly when the piece both starts and ends with the
delimiter (captured bold spans always do; a residual piece such as the
bare two-star string also does, and is therefore not rendered verbatim);
a string containing neither pattern is rendered verbatim unless it is
itself bold-shaped, in which case its first two and last two characters
are stripped; null or empty text yields no fragments. -/
theorem parseMarkdown_partition_amended (cs : List Char) :
    ((parseMarkdownFrags (some cs)).map fragSource).join = cs ∧
    (∀ w i, MFrag.infoF w i ∈ parseMarkdownFrags (some cs) →
      fragVisible (MFrag.infoF w i) = w) ∧
    (∀ p, MFrag.partF p ∈ parseMarkdownFrags (some cs) →
      fragVisible (MFrag.partF p) =
        if boldShaped p then stripDelims p else p) ∧
    (infoFirst cs = none → boldFirst cs = none → boldShaped cs = false →
      visibleText cs = cs) ∧
    (infoFirst cs = none → boldFirst cs = none → boldShaped cs = true →
      visibleText cs = stripDelims cs) ∧
    parseMarkdownFrags none = [] ∧
    parseMarkdownFrags (some []) = [] := by
  refine ⟨?_, ?_, ?_, ?_, ?_, rfl, rfl⟩
  · simp only [parseMarkdownFrags]
    by_cases hc : cs = []
    · subst hc; simp
    · rw [if_neg hc, segsSource]
      exact infoSplit_join cs
  · intro w i _
    rfl
  · intro p _
    rfl
  · intro hi hbf hbs
    by_cases hc : cs = []
    · subst hc; rfl
    · have hA : infoAnchored cs = none := by
        cases hA2 : infoAnchored cs with
        | none => rfl
        | some p =>
          obtain ⟨w, i⟩ := p
          obtain ⟨q, hq⟩ := infoAnchored_infoFirst cs w i hA2
          rw [hi] at hq
          simp at hq
      unfold visibleText
      simp only [parseMarkdownFrags]
      rw [if_neg hc, infoSplit_of_none cs hi]
      simp [segFrags, hA, boldSplit_of_none cs hbf, fragVisible, hbs]
  · intro hi hbf hbs
    by_cases hc : cs = []
    · subst hc; simp [boldShaped] at hbs
    · have hA : infoAnchored cs = none := by
        cases hA2 : infoAnchored cs with
        | none => rfl
        | some p =>
          obtain ⟨w, i⟩ := p
          obtain ⟨q, hq⟩ := infoAnchored_infoFirst cs w i hA2
          rw [hi] at hq
          simp at hq
      unfold visibleText
      simp only [parseMarkdownFrags]
      rw [if_neg hc, infoSplit_of_none cs hi]
      simp [segFrags, hA, boldSplit_of_none cs hbf, fragVisible, hbs]

/-- Witness for the amended C9 on concrete inputs. -/
theorem parseMarkdown_partition_amended_witness :
    visibleText ['a', 'b'] = ['a', 'b'] ∧
    visibleText ['*', '*'] = stripDelims ['*', '*'] := by
  constructor
  · exact (parseMarkdown_partition_amended ['a', 'b']).2.2.2.1
      (by decide) (by decide) (by decide)
  · exact (parseMarkdown_partition_amended ['*', '*']).2.2.2.2.1
      (by decide) (by decide) (by decide)

/-! ## Topics.jsx / TopicView.jsx accordion state
(src/src/components/Topics.jsx lines 37-105) -/

/-- A node of the rendered concept tree as the components consume it:
an id and a list of child nodes (Topics.jsx `node.children`,
TopicView.jsx `topic.subTopics`). -/
inductive RNode where
  | mk (rid : String) (children : List RNode)

def RNode.rid : RNode → String
  | RNode.mk i _ => i

def RNode.children : RNode → List RNode
  | RNode.mk _ cs => cs

def idsOf (g : List RNode) : List String := g.map RNode.rid

mutual

/-- `getDescendantIds`: all strict descendants of a node, child id first
then that child's descendants, in order. -/
def descIds : RNode → List String
  | RNode.mk _ cs => descIdsL cs

/-- Descendant ids contributed by a list of children. -/
def descIdsL : List RNode → List String
  | [] => []
  | n :: rest => n.rid :: (descIds n ++ descIdsL rest)

end

mutual

/-- One entry of `nodeInfoMap`: node id, the sibling ids of its group
(including itself) and the node. -/
def entriesN (sibIds : List String) : RNode → List (String × List String × RNode)
  | RNode.mk i cs => (i, sibIds, RNode.mk i cs) :: entriesL (idsOf cs) cs

/-- Entries contributed by a sibling group, in `processNodes` order. -/
def entriesL (sibIds : List String) : List RNode → List (String × List String × RNode)
  | [] => []
  | n :: rest => entriesN sibIds n ++ entriesL sibIds rest

end

/-- The `nodeInfoMap` built by Topics.jsx, as an association list. -/
def entriesF (g : List RNode) : List (String × List String × RNode) :=
  entriesL (idsOf g) g

/-- `nodeInfoMap.get`: the sibling ids and node for an id. -/
def infoOf (g : List RNode) (t : String) : Option (List String × RNode) :=
  ((entriesF g).find? (fun e => e.1 = t)).map (fun e => e.2)

/-- `getDescendantIds` as called with a node id (empty when the id is
unknown). -/
def descOf (g : List RNode) (t : String) : List String :=
  match infoOf g t with
  | some (_, n) => descIds n
  | none => []

/-- Delete every id of a list from the expanded set. -/
def eraseAllS (s : Finset String) (l : List String) : Finset String :=
  l.foldl (fun acc x => acc.erase x) s

/-- The expanding branch's sibling cleanup: for every sibling of the
clicked node other than itself, delete the sibling and its descendants
(no cleanup when the id is not in the node info map). -/
def pruneSiblings (g : List RNode) (prev : Finset String) (t : String) :
    Finset String :=
  match infoOf g t with
  | some (sibs, _) =>
    (sibs.filter (fun s => s ≠ t)).foldl
      (fun acc sib => eraseAllS (acc.erase sib) (descOf g sib)) prev
  | none => prev

/-- `handleNodeClick` of Topics.jsx / TopicView.jsx: collapsing removes
the node and its descendants; expanding first removes every sibling and
the sibling's descendants, then adds the clicked node. -/
def handleNodeClick (g : List RNode) (prev : Finset String) (t : String) :
    Finset String :=
  if t ∈ prev then
    eraseAllS (prev.erase t) (descOf g t)
  else
    insert t (pruneSiblings g prev t)

/-- The expanded-node-id set after a sequence of click events, starting
from the component's initial empty set. -/
def runClicks (g : List RNode) (events : List String) : Finset String :=
  events.foldl (handleNodeClick g) ∅

mutual

/-- The sibling groups of a node's subtree: its children's ids, and the
groups below them. -/
def groupsN : RNode → List (List String)
  | RNode.mk _ cs => idsOf cs :: groupsL cs

/-- The sibling groups below a list of nodes. -/
def groupsL : List RNode → List (List String)
  | [] => []
  | n :: rest => groupsN n ++ groupsL rest

end

/-- Every sibling group of the tree, the top-level group included. -/
def sibGroups (g : List RNode) : List (List String) :=
  idsOf g :: groupsL g

mutual

def allIdsN : RNode → List String
  | RNode.mk i cs => i :: allIdsL cs

def allIdsL : List RNode → List String
  | [] => []
  | n :: rest => allIdsN n ++ allIdsL rest

end

/-! ### Node info map lemmas -/

mutual

theorem entriesN_keys (sib : List String) (n : RNode) :
    (entriesN sib n).map (fun e => e.1) = allIdsN n := by
  cases n with
  | mk i cs =>
    simp only [entriesN, allIdsN, List.map_cons, List.cons.injEq, true_and]
    exact entriesL_keys (idsOf cs) cs

theorem entriesL_keys (sib : List String) (g : List RNode) :
    (entriesL sib g).map (fun e => e.1) = allIdsL g := by
  cases g with
  | nil => rfl
  | cons n rest =>
    simp only [entriesL, allIdsL, List.map_append]
    rw [entriesN_keys sib n, entriesL_keys sib rest]

end

theorem rid_mem_allIdsN (n : RNode) : n.rid ∈ allIdsN n := by
  cases n with
  | mk i cs => simp [RNode.rid, allIdsN]

theorem idsOf_subset_allIdsL (g : List RNode) : ∀ x ∈ idsOf g, x ∈ allIdsL g := by
  induction g with
  | nil => simp [idsOf]
  | cons n rest ih =>
    intro x hx
    simp only [idsOf, List.map_cons, List.mem_cons] at hx
    simp only [allIdsL, List.mem_append]
    rcases hx with hx | hx
    · left; rw [hx]; exact rid_mem_allIdsN n
    · right; exact ih x hx

mutual

theorem groupsN_subset (n : RNode) :
    ∀ grp ∈ groupsN n, ∀ x ∈ grp, x ∈ allIdsN n := by
  cases n with
  | mk i cs =>
    intro grp hgrp x hx
    simp only [groupsN, List.mem_cons] at hgrp
    simp only [allIdsN, List.mem_cons]
    rcases hgrp with hgrp | hgrp
    · subst hgrp
      exact Or.inr (idsOf_subset_allIdsL cs x hx)
    · exact Or.inr (groupsL_subset cs grp hgrp x hx)

theorem groupsL_subset (g : List RNode) :
    ∀ grp ∈ groupsL g, ∀ x ∈ grp, x ∈ allIdsL g := by
  cases g with
  | nil => simp [groupsL]
  | cons n rest =>
    intro grp hgrp x hx
    simp only [groupsL, List.mem_append] at hgrp
    simp only [allIdsL, List.mem_append]
    rcases hgrp with hgrp | hgrp
    · exact Or.inl (groupsN_subset n grp hgrp x hx)
    · exact Or.inr (groupsL_subset rest grp hgrp x hx)

end

theorem sibGroups_subset (g : List RNode) :
    ∀ grp ∈ sibGroups g, ∀ x ∈ grp, x ∈ allIdsL g := by
  intro grp hgrp x hx
  simp only [sibGroups, List.mem_cons] at hgrp
  rcases hgrp with hgrp | hgrp
  · subst hgrp
    exact idsOf_subset_allIdsL g x hx
  · exact groupsL_subset g grp hgrp x hx

theorem entriesL_of_mem_idsOf (sib : List String) (g : List RNode) :
    ∀ t ∈ idsOf g, ∃ m, (t, sib, m) ∈ entriesL sib g := by
  induction g with
  | nil => simp [idsOf]
  | cons n rest ih =>
    intro t ht
    simp only [idsOf, List.map_cons, List.mem_cons] at ht
    rcases ht with ht | ht
    · cases n with
      | mk i cs =>
        refine ⟨RNode.mk i cs, ?_⟩
        simp only [entriesL, entriesN, List.mem_append, List.mem_cons]
        left; left
        simp only [RNode.rid] at ht
        rw [ht]
    · obtain ⟨m, hm⟩ := ih t ht
      refine ⟨m, ?_⟩
      simp only [entriesL, List.mem_append]
      exact Or.inr hm

mutual

theorem groupsN_entries (sib : List String) (n : RNode) :
    ∀ grp ∈ groupsN n, ∀ t ∈ grp, ∃ m, (t, grp, m) ∈ entriesN sib n := by
  cases n with
  | mk i cs =>
    intro grp hgrp t ht
    simp only [groupsN, List.mem_cons] at hgrp
    rcases hgrp with hgrp | hgrp
    · subst hgrp
      obtain ⟨m, hm⟩ := entriesL_of_mem_idsOf (idsOf cs) cs t ht
      exact ⟨m, by simp only [entriesN, List.mem_cons]; exact Or.inr hm⟩
    · obtain ⟨m, hm⟩ := groupsL_entries (idsOf cs) cs grp hgrp t ht
      exact ⟨m, by simp only [entriesN, List.mem_cons]; exact Or.inr hm⟩

theorem groupsL_entries (sib : List String) (g : List RNode) :
    ∀ grp ∈ groupsL g, ∀ t ∈ grp, ∃ m, (t, grp, m) ∈ entriesL sib g := by
  cases g with
  | nil => simp [groupsL]
  | cons n rest =>
    intro grp hgrp t ht
    simp only [groupsL, List.mem_append] at hgrp
    rcases hgrp with hgrp | hgrp
    · obtain ⟨m, hm⟩ := groupsN_entries sib n grp hgrp t ht
      exact ⟨m, by simp only [entriesL, List.mem_append]; exact Or.inl hm⟩
    · obtain ⟨m, hm⟩ := groupsL_entries sib rest grp hgrp t ht
      exact ⟨m, by simp only [entriesL, List.mem_append]; exact Or.inr hm⟩

end

theorem sibGroups_entries (g : List RNode) :
    ∀ grp ∈ sibGroups g, ∀ t ∈ grp, ∃ m, (t, grp, m) ∈ entriesF g := by
  intro grp hgrp t ht
  simp only [sibGroups, List.mem_cons] at hgrp
  rcases hgrp with hgrp | hgrp
  · subst hgrp
    exact entriesL_of_mem_idsOf (idsOf g) g t ht
  · exact groupsL_entries (idsOf g) g grp hgrp t ht

theorem infoOf_group (g : List RNode) (hnd : (allIdsL g).Nodup)
    (grp : List String) (hgrp : grp ∈ sibGroups g) (t : String) (ht : t ∈ grp) :
    ∃ n, infoOf g t = some (grp, n) := by
  obtain ⟨m, hm⟩ := sibGroups_entries g grp hgrp t ht
  cases hf : (entriesF g).find? (fun e => e.1 = t) with
  | none =>
    rw [List.find?_eq_none] at hf
    have h2 := hf _ hm
    simp at h2
  | some e =>
    have hmem := List.mem_of_find?_eq_some hf
    have hkey : e.1 = t := by simpa using List.find?_some hf
    have hkeys : ((entriesF g).map (fun x => x.1)).Nodup := by
      unfold entriesF
      rw [entriesL_keys]
      exact hnd
    have heq : e = (t, grp, m) :=
      List.inj_on_of_nodup_map hkeys hmem hm (by rw [hkey])
    refine ⟨m, ?_⟩
    simp [infoOf, hf, heq]

theorem infoOf_none_not_in_group (g : List RNode) (grp : List String)
    (t : String) (hgrp : grp ∈ sibGroups g) (h : infoOf g t = none) :
    t ∉ grp := by
  intro ht
  obtain ⟨m, hm⟩ := sibGroups_entries g grp hgrp t ht
  simp only [infoOf, Option.map_eq_none'] at h
  rw [List.find?_eq_none] at h
  have h2 := h _ hm
  simp at h2

/-! ### Expanded-set lemmas -/

theorem eraseAllS_subset : ∀ (l : List String) (s : Finset String),
    eraseAllS s l ⊆ s := by
  intro l
  induction l with
  | nil => intro s; exact Finset.Subset.refl s
  | cons x l ih =>
    intro s
    exact (ih (s.erase x)).trans (Finset.erase_subset x s)

theorem foldl_erase_subset (g : List RNode) :
    ∀ (l : List String) (s : Finset String),
      l.foldl (fun acc sib => eraseAllS (acc.erase sib) (descOf g sib)) s ⊆ s := by
  intro l
  induction l with
  | nil => intro s; exact Finset.Subset.refl s
  | cons x l ih =>
    intro s
    exact (ih _).trans ((eraseAllS_subset _ _).trans (Finset.erase_subset x s))

theorem foldl_erase_removes (g : List RNode) :
    ∀ (l : List String) (s : Finset String) (b : String), b ∈ l →
      b ∉ l.foldl (fun acc sib => eraseAllS (acc.erase sib) (descOf g sib)) s := by
  intro l
  induction l with
  | nil => intro s b hb; simp at hb
  | cons x l ih =>
    intro s b hb
    rw [List.mem_cons] at hb
    rcases hb with hb | hb
    · subst hb
      intro hmem
      have h1 := foldl_erase_subset g l (eraseAllS (s.erase b) (descOf g b)) hmem
      have h2 := eraseAllS_subset (descOf g b) (s.erase b) h1
      exact (Finset.not_mem_erase b s) h2
    · exact ih _ b hb

theorem pruneSiblings_subset (g : List RNode) (s : Finset String) (t : String) :
    pruneSiblings g s t ⊆ s := by
  unfold pruneSiblings
  cases hio : infoOf g t with
  | none => exact Finset.Subset.refl s
  | some p =>
    obtain ⟨sibs, n⟩ := p
    exact foldl_erase_subset g _ s

theorem pruneSiblings_removes (g : List RNode) (s : Finset String) (t : String)
    (sibs : List String) (n : RNode) (hio : infoOf g t = some (sibs, n))
    (b : String) (hb : b ∈ sibs) (hbt : b ≠ t) :
    b ∉ pruneSiblings g s t := by
  unfold pruneSiblings
  rw [hio]
  exact foldl_erase_removes g _ s b (by rw [List.mem_filter]; exact ⟨hb, by simpa using hbt⟩)

/-- The accordion invariant: the expanded set holds at most one id of any
sibling group. -/
def ClickInv (g : List RNode) (s : Finset String) : Prop :=
  ∀ grp ∈ sibGroups g, ∀ a ∈ s, ∀ b ∈ s, a ∈ grp → b ∈ grp → a = b

theorem ClickInv_mono (g : List RNode) (s s' : Finset String)
    (hsub : s' ⊆ s) (h : ClickInv g s) : ClickInv g s' :=
  fun grp hg a ha b hb => h grp hg a (hsub ha) b (hsub hb)

theorem handleNodeClick_ClickInv (g : List RNode) (hnd : (allIdsL g).Nodup)
    (s : Finset String) (h : ClickInv g s) (t : String) :
    ClickInv g (handleNodeClick g s t) := by
  unfold handleNodeClick
  by_cases hmem : t ∈ s
  · rw [if_pos hmem]
    exact ClickInv_mono g s _
      ((eraseAllS_subset _ _).trans (Finset.erase_subset t s)) h
  · rw [if_neg hmem]
    intro grp hgrp a ha b hb hag hbg
    rw [Finset.mem_insert] at ha hb
    have hsubp := pruneSiblings_subset g s t
    by_cases hat : a = t
    · by_cases hbt : b = t
      · rw [hat, hbt]
      · exfalso
        rcases hb with hb | hb
        · exact hbt hb
        · have htg : t ∈ grp := hat ▸ hag
          cases hio : infoOf g t with
          | none => exact infoOf_none_not_in_group g grp t hgrp hio htg
          | some p =>
            obtain ⟨sibs, n⟩ := p
            obtain ⟨n', hi2⟩ := infoOf_group g hnd grp hgrp t htg
            rw [hio] at hi2
            simp only [Option.some.injEq, Prod.mk.injEq] at hi2
            have hgs : sibs = grp := hi2.1
            exact pruneSiblings_removes g s t sibs n hio b (hgs ▸ hbg) hbt hb
    · rcases ha with ha' | ha'
      · exact absurd ha' hat
      · by_cases hbt : b = t
        · exfalso
          have htg : t ∈ grp := hbt ▸ hbg
          cases hio : infoOf g t with
          | none => exact infoOf_none_not_in_group g grp t hgrp hio htg
          | some p =>
            obtain ⟨sibs, n⟩ := p
            obtain ⟨n', hi2⟩ := infoOf_group g hnd grp hgrp t htg
            rw [hio] at hi2
            simp only [Option.some.injEq, Prod.mk.injEq] at hi2
            have hgs : sibs = grp := hi2.1
            exact pruneSiblings_removes g s t sibs n hio a (hgs ▸ hag) hat ha'
        · rcases hb with hb' | hb'
          · exact absurd hb' hbt
          · exact h grp hgrp a (hsubp ha') b (hsubp hb') hag hbg

theorem runClicks_ClickInv (g : List RNode) (hnd : (allIdsL g).Nodup)
    (events : List String) : ClickInv g (runClicks g events) := by
  have haux : ∀ (l : List String) (s : Finset String), ClickInv g s →
      ClickInv g (l.foldl (handleNodeClick g) s) := by
    intro l
    induction l with
    | nil => intro s hs; exact hs
    | cons e rest ih =>
      intro s hs
      exact ih _ (handleNodeClick_ClickInv g hnd s hs e)
  exact haux events ∅ (by intro grp hgrp a ha; simp at ha)

/-- C8: starting from the empty expanded set, after any finite sequence
of handleNodeClick events the expanded set contains at most one member of
any sibling group of the tree (top-level group included): expanding a
node deletes its siblings and their descendants before adding it. -/
theorem accordion_one_per_sibling_group (g : List RNode) (events : List String)
    (hnd : (allIdsL g).Nodup) (grp : List String) (hgrp : grp ∈ sibGroups g)
    (a b : String) (ha : a ∈ runClicks g events) (hb : b ∈ runClicks g events)
    (hag : a ∈ grp) (hbg : b ∈ grp) : a = b :=
  runClicks_ClickInv g hnd events grp hgrp a ha b hb hag hbg

/-- Witness for C8 on a concrete tree and click sequence. -/
theorem accordion_one_per_sibling_group_witness :
    ("b" : String) = "b" :=
  accordion_one_per_sibling_group
    [RNode.mk "a" [RNode.mk "c" [], RNode.mk "d" []], RNode.mk "b" []]
    ["a", "c", "d", "b"] (by decide) ["a", "b"] (by decide)
    "b" "b" (by decide) (by decide) (by decide) (by decide)

/-! ## TreeNode.jsx click guard (lines 4-7 and 46-60) -/

/-- The item a TreeNode renders, as far as the click guard is concerned:
its id, its optional content sequence and its optional child list
(elements opaque). -/
structure TNItem (α γ : Type) where
  tid : String
  content : Option (List α)
  subTopics : Option (List γ)
deriving DecidableEq, Repr

/-- `hasContent`: the content sequence exists and is non-empty. -/
def hasContentI (it : TNItem α γ) : Bool :=
  match it.content with
  | none => false
  | some l => decide (0 < l.length)

/-- `hasChildren`: the child list exists and is non-empty. -/
def hasChildrenI (it : TNItem α γ) : Bool :=
  match it.subTopics with
  | none => false
  | some l => decide (0 < l.length)

/-- `isExpandable` of TreeNode.jsx. -/
def isExpandableI (it : TNItem α γ) : Bool :=
  hasContentI it || hasChildrenI it

/-- `handleClick`: the id emitted to onNodeClick, if any. -/
def treeNodeClick (it : TNItem α γ) : Option String :=
  if isExpandableI it then some it.tid else none

/-- `handleKeyDown`: Enter and Space delegate to handleClick; other keys
emit nothing. -/
def treeNodeKeyDown (key : String) (it : TNItem α γ) : Option String :=
  if key = "Enter" ∨ key = " " then treeNodeClick it else none

/-- Apply an emitted click, if any, to the expanded set via the parent
component's handleNodeClick. -/
def applyEmit (g : List RNode) (s : Finset String) (o : Option String) :
    Finset String :=
  match o with
  | none => s
  | some t => handleNodeClick g s t

/-- C10: clicking, or pressing Enter or Space on, a tree node whose
content sequence and child list are both absent or empty never invokes
onNodeClick, so the expanded-node-id set is unchanged. -/
theorem inert_node_click_no_change {α γ : Type} (it : TNItem α γ)
    (key : String) (g : List RNode) (s : Finset String)
    (hc : it.content = none ∨ it.content = some [])
    (hch : it.subTopics = none ∨ it.subTopics = some []) :
    treeNodeClick it = none ∧
    treeNodeKeyDown key it = none ∧
    applyEmit g s (treeNodeClick it) = s ∧
    applyEmit g s (treeNodeKeyDown key it) = s := by
  have hne : isExpandableI it = false := by
    rcases hc with hc | hc <;> rcases hch with hch | hch <;>
      simp [isExpandableI, hasContentI, hasChildrenI, hc, hch]
  have h1 : treeNodeClick it = none := by
    simp [treeNodeClick, hne]
  have h2 : treeNodeKeyDown key it = none := by
    unfold treeNodeKeyDown
    by_cases hk : key = "Enter" ∨ key = " "
    · rw [if_pos hk]; exact h1
    · rw [if_neg hk]
  exact ⟨h1, h2, by rw [h1]; rfl, by rw [h2]; rfl⟩

/-- Witness for C10 on a concrete inert node. -/
theorem inert_node_click_no_change_witness :
    treeNodeClick (⟨"x", none, some []⟩ : TNItem Nat Nat) = none ∧
    treeNodeKeyDown "Enter" (⟨"x", none, some []⟩ : TNItem Nat Nat) = none ∧
    applyEmit [] {"y"} (treeNodeClick (⟨"x", none, some []⟩ : TNItem Nat Nat)) = {"y"} ∧
    applyEmit [] {"y"}
      (treeNodeKeyDown "Enter" (⟨"x", none, some []⟩ : TNItem Nat Nat)) = {"y"} :=
  inert_node_click_no_change (⟨"x", none, some []⟩ : TNItem Nat Nat) "Enter"
    [] {"y"} (Or.inl rfl) (Or.inr rfl)
